import Mathlib

/-!
Verification of the durable-execution checkpoint store
(`src/upsonic/durable/storages/redis.py`) and the durable execution
manager (`src/upsonic/durable/execution.py`).

The Redis backend is shallowly embedded: the string keyspace of one
storage instance is split into its three per-execution artifact
families (primary JSON blob under the plain key, metadata hash under
the `meta:` key, and status index sets under the `index:` keys), and
the Redis database restricted to those keys is a `Store` record.
Redis string keys become an association list keyed by execution id,
the metadata hashes become an association list of `Metadata` records
(every save writes all seven hash fields, so a whole-record value is
faithful to `hset` with the full mapping), and the four status index
sets become a function from `Status` to a duplicate-free list of
member strings.  Wall-clock time (`datetime.now`) enters `save` as an
explicit `now : String` argument, and `datetime.fromisoformat` used by
cleanup is abstracted as an explicit `parse : String → Option Int`
argument together with a precomputed integer `cutoff`.
-/

/-- The execution status values of the data model
(`running | paused | completed | failed`).  The Python code carries
them as strings; the spec's data model restricts them to these four
values, which is what `clear_all_indexes` and `get_stats` iterate
over. -/
inductive Status where
  | running
  | paused
  | completed
  | failed
deriving DecidableEq, Fintype

/-- The `ExecutionState` dictionary as the Redis backend reads it:
each field the backend touches is `Option`-valued (a Python dict key
may be absent), and the task/context/agent-state payload, which the
backend never inspects, is collapsed into one opaque `payload`
string. -/
structure ExecState where
  payload : String
  step_index : Option Nat
  step_name : Option String
  status : Option Status
  error : Option String
  timestamp : Option String
  saved_at : Option String
  execution_id : Option String
deriving DecidableEq

/-- A stored primary value: `json.dumps` output that either decodes
back to the state it came from (`ok`) or fails `json.loads`
(`bad`, the corrupted-record case of `load_state_async`). -/
inductive Blob where
  | ok (s : ExecState)
  | bad
deriving DecidableEq

/-- The metadata hash written by `save_state_async` lines 122-130:
seven fields, all store-native strings (`step_index` is stored via
`str(...)` and read back via `int(...)`, modelled as the `Nat` it
round-trips). -/
structure Metadata where
  execution_id : String
  status : Status
  step_index : Nat
  step_name : String
  timestamp : String
  saved_at : String
  error : String
deriving DecidableEq

/-- One Redis database holding one storage instance's keys. -/
structure Store where
  primary : List (String × Blob)
  meta : List (String × Metadata)
  index : Status → List String

/-- The empty database. -/
def emptyStore : Store :=
  { primary := [], meta := [], index := fun _ => [] }

/-- Association-list lookup (first binding wins), the model of reading
one Redis key. -/
def alookup {α : Type} : List (String × α) → String → Option α
  | [], _ => none
  | p :: rest, i => if p.1 = i then some p.2 else alookup rest i

/-- Key overwrite, the model of Redis `SET`/`HSET` on a whole record:
afterwards the key holds exactly the new value and holds it once. -/
def upsert {α : Type} (k : String) (v : α) (l : List (String × α)) :
    List (String × α) :=
  (k, v) :: l.filter (fun p => p.1 ≠ k)

/-- Redis `SADD`: add a member to a set, keeping members
duplicate-free. -/
def sadd (l : List String) (i : String) : List String :=
  if i ∈ l then l else l ++ [i]

/-- Python `x or default` on an optional string: `None` and the empty
string both fall back to the default. -/
def pyOrStr (o : Option String) (d : String) : String :=
  match o with
  | none => d
  | some s => if s = "" then d else s

/-- The metadata projection computed inside `save_state_async` lines
122-130 from the (already stamped) state: `status` is
`state.get("status") or "running"`, `step_index` is
`str(state.get("step_index", 0))`, `step_name` is
`state.get("step_name") or "unknown"`, and `timestamp` / `saved_at` /
`error` are `state.get(...) or ""`. -/
def projectMeta (execution_id : String) (st : ExecState) : Metadata :=
  { execution_id := execution_id
    status := st.status.getD .running
    step_index := st.step_index.getD 0
    step_name := pyOrStr st.step_name "unknown"
    timestamp := pyOrStr st.timestamp ""
    saved_at := pyOrStr st.saved_at ""
    error := pyOrStr st.error "" }

/-- `save_state_async` (redis.py lines 87-144): stamp `saved_at` with
the current time and `execution_id` into the state, then in one
pipeline write the primary JSON blob, overwrite the metadata hash
with the projection, and `SADD` the id into the index set of
`state.get("status", "running")`.  No `SREM` from any other status
index is issued. -/
def save_state_async (now : String) (execution_id : String)
    (state : ExecState) (store : Store) : Store :=
  let stamped : ExecState :=
    { state with saved_at := some now, execution_id := some execution_id }
  let idxStatus := stamped.status.getD .running
  { primary := upsert execution_id (Blob.ok stamped) store.primary
    meta := upsert execution_id (projectMeta execution_id stamped) store.meta
    index := (Function.update store.index idxStatus
      (sadd (store.index idxStatus) execution_id)) }

/-- `load_state_async` (redis.py lines 146-171): `GET` the primary
key; a missing key returns `None`, a `json.loads` failure also
returns `None`, a decodable blob returns the parsed state. -/
def load_state_async (store : Store) (execution_id : String) :
    Option ExecState :=
  match alookup store.primary execution_id with
  | none => none
  | some Blob.bad => none
  | some (Blob.ok s) => some s

/-- `delete_state_async` (redis.py lines 173-208): load the existing
record first (to learn which status index to shrink), then pipeline
the deletion of the primary key, the metadata key, and — only when a
state was loaded — the `SREM` from that state's status index.  The
result is `True` when any pipeline command removed something. -/
def delete_state_async (store : Store) (execution_id : String) :
    Store × Bool :=
  let st := load_state_async store execution_id
  let hitPrimary := (alookup store.primary execution_id).isSome
  let hitMeta := (alookup store.meta execution_id).isSome
  match st with
  | some s =>
    let sStatus := s.status.getD .running
    let hitIndex := decide (execution_id ∈ store.index sStatus)
    ({ primary := store.primary.filter (fun p => p.1 ≠ execution_id)
       meta := store.meta.filter (fun p => p.1 ≠ execution_id)
       index := (Function.update store.index sStatus
         ((store.index sStatus).filter (fun j => j ≠ execution_id))) },
     hitPrimary || hitMeta || hitIndex)
  | none =>
    ({ primary := store.primary.filter (fun p => p.1 ≠ execution_id)
       meta := store.meta.filter (fun p => p.1 ≠ execution_id)
       index := store.index },
     hitPrimary || hitMeta)

/-- The ids `list_executions_async` visits: the status index set when
a status filter is supplied, otherwise a scan of all metadata keys. -/
def listIds (store : Store) (status : Option Status) : List String :=
  match status with
  | some s => store.index s
  | none => store.meta.map (fun p => p.1)

/-- The metadata rows collected by `list_executions_async` lines
243-257: `HGETALL` each visited id's metadata hash and keep the
non-empty ones; the row dict rebuilt there carries exactly the seven
hash fields, so it is the `Metadata` value itself. -/
def selectedMetas (store : Store) (status : Option Status) :
    List Metadata :=
  (listIds store status).filterMap (fun i => alookup store.meta i)

/-- Lexicographic at-most comparison on character lists, the order
Python uses when comparing the timestamp strings of two metadata
rows. -/
def charListLe : List Char → List Char → Bool
  | [], _ => true
  | _ :: _, [] => false
  | a :: as, b :: bs =>
      if a < b then true
      else if b < a then false
      else charListLe as bs

/-- Lexicographic string comparison via the underlying characters. -/
def strLe (a b : String) : Bool :=
  charListLe a.data b.data

theorem charListLe_total : ∀ as bs : List Char,
    charListLe as bs = true ∨ charListLe bs as = true := by
  intro as
  induction as with
  | nil => intro bs; exact Or.inl rfl
  | cons a as ih =>
    intro bs
    cases bs with
    | nil => exact Or.inr rfl
    | cons b bs =>
      by_cases hab : a < b
      · exact Or.inl (by simp [charListLe, hab])
      · by_cases hba : b < a
        · exact Or.inr (by simp [charListLe, hba])
        · rcases ih bs with h | h
          · exact Or.inl (by simp [charListLe, hab, hba, h])
          · exact Or.inr (by simp [charListLe, hab, hba, h])

theorem charListLe_trans : ∀ as bs cs : List Char,
    charListLe as bs = true → charListLe bs cs = true →
    charListLe as cs = true := by
  intro as
  induction as with
  | nil => intro bs cs _ _; exact rfl
  | cons a as ih =>
    intro bs cs h1 h2
    cases bs with
    | nil => simp [charListLe] at h1
    | cons b bs =>
      cases cs with
      | nil => simp [charListLe] at h2
      | cons c cs =>
        simp only [charListLe] at h1 h2 ⊢
        by_cases hab : a < b
        · by_cases hbc : b < c
          · simp [lt_trans hab hbc]
          · by_cases hcb : c < b
            · simp [hbc, hcb] at h2
            · have hbc' : b = c := le_antisymm (not_lt.mp hcb) (not_lt.mp hbc)
              simp [hbc' ▸ hab]
        · by_cases hba : b < a
          · simp [hab, hba] at h1
          · have hab' : a = b := le_antisymm (not_lt.mp hba) (not_lt.mp hab)
            subst hab'
            by_cases hbc : a < c
            · simp [hbc]
            · by_cases hcb : c < a
              · simp [hbc, hcb] at h2
              · have h1' : charListLe as bs = true := by
                  simpa [lt_irrefl] using h1
                have h2' : charListLe bs cs = true := by
                  simpa [hbc, hcb] using h2
                simpa [hbc, hcb] using ih bs cs h1' h2'

/-- Descending-timestamp comparison used by
`result.sort(key=..., reverse=True)`: `a` may precede `b` when `b`'s
timestamp string is at most `a`'s. -/
def tsDescRel (a b : Metadata) : Prop :=
  strLe b.timestamp a.timestamp = true

instance : DecidableRel tsDescRel := fun a b =>
  inferInstanceAs (Decidable (strLe b.timestamp a.timestamp = true))

instance : IsTotal Metadata tsDescRel :=
  ⟨fun a b => (charListLe_total b.timestamp.data a.timestamp.data).elim Or.inl Or.inr⟩

instance : IsTrans Metadata tsDescRel :=
  ⟨fun _ _ _ h1 h2 => charListLe_trans _ _ _ h2 h1⟩

/-- Python `result[:limit]` guarded by `if limit:`: `None` and `0` are
falsy, so truncation happens only for a nonzero limit. -/
def applyLimit {α : Type} (limit : Option Nat) (l : List α) : List α :=
  match limit with
  | none => l
  | some n => if n = 0 then l else l.take n

/-- `list_executions_async` (redis.py lines 210-266): collect the
metadata rows of the selected ids, sort them by timestamp descending,
and truncate only when `limit` is truthy. -/
def list_executions_async (store : Store) (status : Option Status)
    (limit : Option Nat) : List Metadata :=
  applyLimit limit (List.insertionSort tsDescRel (selectedMetas store status))

/-- One iteration of the cleanup loop body (redis.py lines 290-312):
`HGETALL` the metadata (a missing hash yields an empty dict whose
`timestamp` is `None` and is skipped), skip an empty timestamp, skip
a timestamp the parser rejects, and otherwise delete the record when
its timestamp is strictly before the cutoff, counting only deletions
that reported success. -/
def cleanupStep (parse : String → Option Int) (cutoff : Int)
    (acc : Store × Nat) (i : String) : Store × Nat :=
  match alookup acc.1.meta i with
  | none => acc
  | some m =>
    if m.timestamp = "" then acc
    else
      match parse m.timestamp with
      | none => acc
      | some t =>
        if t < cutoff then
          let r := delete_state_async acc.1 i
          (r.1, if r.2 then acc.2 + 1 else acc.2)
        else acc

/-- `cleanup_old_executions_async` (redis.py lines 268-314): walk the
`completed` index set of the current store, then the `failed` index
set of the store as it stands after the first pass, applying
`cleanupStep` to each member, and return the final store with the
number of successful deletions. -/
def cleanup_old_executions_async (parse : String → Option Int)
    (cutoff : Int) (store : Store) : Store × Nat :=
  let a1 := (store.index .completed).foldl (cleanupStep parse cutoff) (store, 0)
  (a1.1.index .failed).foldl (cleanupStep parse cutoff) a1

/-- `clear_all_indexes` (redis.py lines 362-369): delete the index key
of each of the four statuses. -/
def clear_all_indexes (store : Store) : Store :=
  [Status.running, Status.paused, Status.completed, Status.failed].foldl
    (fun st s => { st with index := Function.update st.index s [] }) store

/-- `rebuild_indexes` (redis.py lines 371-387): clear every index,
then scan all metadata hashes and, whenever both the `status` and the
`execution_id` fields are truthy (the status is an enum value here and
is always truthy; the execution id must be a non-empty string), `SADD`
that execution id into that status's index. -/
def rebuild_indexes (store : Store) : Store :=
  store.meta.foldl
    (fun st p =>
      if p.2.execution_id ≠ "" then
        { st with index :=
            (Function.update st.index p.2.status
              (sadd (st.index p.2.status) p.2.execution_id)) }
      else st)
    (clear_all_indexes store)

/-- The `DurableExecution` manager fields the verified operations
read: its immutable execution id and the `auto_cleanup` flag.  The
storage backend is passed explicitly as the `Store` value. -/
structure DurableExecution where
  execution_id : String
  auto_cleanup : Bool

/-- `mark_completed_async` (execution.py lines 218-244): with
auto-cleanup, delete the record outright; otherwise load it and, only
when present, set its status to `completed` and re-save it. -/
def mark_completed_async (d : DurableExecution) (now : String)
    (store : Store) : Store :=
  if d.auto_cleanup then
    (delete_state_async store d.execution_id).1
  else
    match load_state_async store d.execution_id with
    | some st =>
        save_state_async now d.execution_id
          { st with status := some .completed } store
    | none => store

/-- `mark_failed_async` (execution.py lines 262-280): load the record
and, only when present, set `status = "failed"` and the error string,
then re-save; when absent nothing is written. -/
def mark_failed_async (d : DurableExecution) (error : String)
    (now : String) (store : Store) : Store :=
  match load_state_async store d.execution_id with
  | some st =>
      save_state_async now d.execution_id
        { st with status := some .failed, error := some error } store
  | none => store

/-- Observable outcome of calling a synchronous wrapper method. -/
inductive SyncOutcome where
  | completedSync
  | backgroundTask
  | wrongContextError
deriving DecidableEq

/-- `asyncio.run(coro)`: raises a wrong-context `RuntimeError` when the
calling thread already has a running event loop, otherwise drives the
coroutine to completion. -/
def asyncioRun (loopRunning : Bool) : SyncOutcome :=
  if loopRunning then .wrongContextError else .completedSync

/-- `save_checkpoint` (execution.py lines 131-161): when the thread's
event loop is running, schedule the coroutine with
`asyncio.create_task` and return at once; when a loop exists but is
idle, run to completion with `run_until_complete`; when
`get_event_loop` raises `RuntimeError` (no loop in this thread, hence
none running), fall back to `asyncio.run`. -/
def save_checkpoint (loopRunning : Bool) : SyncOutcome :=
  if loopRunning then .backgroundTask else .completedSync

/-- `mark_completed` (execution.py lines 246-260): same dispatch shape
as `save_checkpoint`. -/
def mark_completed (loopRunning : Bool) : SyncOutcome :=
  if loopRunning then .backgroundTask else .completedSync

/-- `mark_failed` (execution.py lines 282-296): same dispatch shape as
`save_checkpoint`. -/
def mark_failed (loopRunning : Bool) : SyncOutcome :=
  if loopRunning then .backgroundTask else .completedSync

/-- `load_checkpoint` (execution.py lines 200-216): when the loop is
running the method raises `RuntimeError("Cannot call synchronous
method from async context")` inside its own `try`, the
`except RuntimeError` clause catches that very exception and calls
`asyncio.run`, and `asyncio.run` then raises the wrong-context error
because the loop is running; when no loop is running the coroutine is
driven to completion. -/
def load_checkpoint (loopRunning : Bool) : SyncOutcome :=
  if loopRunning then asyncioRun loopRunning else .completedSync

/-- `get_execution_info` (execution.py lines 298-312): same dispatch
shape as `load_checkpoint`. -/
def get_execution_info (loopRunning : Bool) : SyncOutcome :=
  if loopRunning then asyncioRun loopRunning else .completedSync

/-- `load_by_id` (execution.py lines 375-396): same dispatch shape as
`load_checkpoint`. -/
def load_by_id (loopRunning : Bool) : SyncOutcome :=
  if loopRunning then asyncioRun loopRunning else .completedSync

/-- A store populated with one consistently written record per entry:
the three artifact families `save_state_async` maintains, derived from
the same per-record state via the same metadata projection.  This is
the store shape reachable by a drift-free sequence of saves of
distinct ids. -/
def mkStore (recs : List (String × ExecState)) : Store :=
  { primary := recs.map (fun p => (p.1, Blob.ok p.2))
    meta := recs.map (fun p => (p.1, projectMeta p.1 p.2))
    index := (fun s =>
      (recs.filter (fun p => p.2.status.getD .running = s)).map
        (fun p => p.1)) }

/-- Whether cleanup's timestamp test fires for a state: a non-empty
timestamp string that the parser accepts and that lies strictly
before the cutoff. -/
def tsOldB (parse : String → Option Int) (cutoff : Int)
    (st : ExecState) : Bool :=
  pyOrStr st.timestamp "" ≠ "" &&
    match parse (pyOrStr st.timestamp "") with
    | none => false
    | some t => decide (t < cutoff)

/-- Whether a state carries a terminal status. -/
def isTerminalB (st : ExecState) : Bool :=
  decide (st.status.getD .running = .completed)
    || decide (st.status.getD .running = .failed)

/-- The records `cleanup_old_executions_async` removes from a
consistent store: terminal status and an old, parseable timestamp. -/
def toDeleteB (parse : String → Option Int) (cutoff : Int)
    (st : ExecState) : Bool :=
  isTerminalB st && tsOldB parse cutoff st

/-! ### Association-list and set lemmas -/

theorem alookup_upsert_self {α : Type} (k : String) (v : α)
    (l : List (String × α)) : alookup (upsert k v l) k = some v := by
  simp [upsert, alookup]

theorem alookup_filter_self {α : Type} (k : String)
    (l : List (String × α)) :
    alookup (l.filter (fun p => p.1 ≠ k)) k = none := by
  induction l with
  | nil => rfl
  | cons p rest ih =>
    by_cases h : p.1 = k
    · simpa [List.filter, h] using ih
    · simpa [List.filter, h, alookup] using ih

theorem alookup_filter_ne {α : Type} (k i : String)
    (l : List (String × α)) (h : i ≠ k) :
    alookup (l.filter (fun p => p.1 ≠ k)) i = alookup l i := by
  induction l with
  | nil => rfl
  | cons p rest ih =>
    rw [List.filter_cons]
    by_cases hp : p.1 = k
    · have hpi : p.1 ≠ i := fun hc => h (hc ▸ hp)
      rw [if_neg (by simp [hp])]
      rw [ih]
      show alookup rest i = if p.1 = i then some p.2 else alookup rest i
      rw [if_neg hpi]
    · rw [if_pos (by simp [hp])]
      show (if p.1 = i then some p.2 else _) = if p.1 = i then some p.2 else _
      by_cases hi : p.1 = i
      · rw [if_pos hi, if_pos hi]
      · rw [if_neg hi, if_neg hi]
        exact ih

theorem alookup_upsert_ne {α : Type} (k i : String) (v : α)
    (l : List (String × α)) (h : i ≠ k) :
    alookup (upsert k v l) i = alookup l i := by
  simp only [upsert, alookup]
  rw [if_neg (fun hc => h hc.symm)]
  exact alookup_filter_ne k i l h

theorem mem_of_alookup_eq_some {α : Type} {l : List (String × α)}
    {i : String} {v : α} (h : alookup l i = some v) : (i, v) ∈ l := by
  induction l with
  | nil => simp [alookup] at h
  | cons p rest ih =>
    by_cases hp : p.1 = i
    · simp only [alookup, if_pos hp] at h
      have hv : p.2 = v := (Option.some.injEq _ _).mp h
      have hpv : (i, v) = p := by
        obtain ⟨p1, p2⟩ := p
        simp only at hp hv
        rw [hp, hv]
      rw [hpv]
      exact List.mem_cons_self _ _
    · simp only [alookup, if_neg hp] at h
      exact List.mem_cons_of_mem _ (ih h)

theorem alookup_isSome_of_mem {α : Type} {l : List (String × α)}
    {i : String} {v : α} (h : (i, v) ∈ l) : (alookup l i).isSome := by
  induction l with
  | nil => simp at h
  | cons p rest ih =>
    rcases List.mem_cons.mp h with h1 | h1
    · simp [alookup, ← h1]
    · by_cases hp : p.1 = i
      · simp [alookup, hp]
      · simpa [alookup, hp] using ih h1

theorem alookup_eq_some_of_mem {α : Type} {l : List (String × α)}
    (hnd : (l.map (fun p => p.1)).Nodup) {i : String} {v : α}
    (h : (i, v) ∈ l) : alookup l i = some v := by
  induction l with
  | nil => simp at h
  | cons p rest ih =>
    simp only [List.map_cons, List.nodup_cons] at hnd
    rcases List.mem_cons.mp h with h1 | h1
    · simp [alookup, ← h1]
    · have hp : p.1 ≠ i := by
        intro hc
        exact hnd.1 (by
          rw [hc]
          exact List.mem_map.mpr ⟨(i, v), h1, rfl⟩)
      simpa [alookup, hp] using ih hnd.2 h1

theorem key_unique {α : Type} {l : List (String × α)}
    (hnd : (l.map (fun p => p.1)).Nodup) {i : String} {v w : α}
    (hv : (i, v) ∈ l) (hw : (i, w) ∈ l) : v = w := by
  have h1 := alookup_eq_some_of_mem hnd hv
  have h2 := alookup_eq_some_of_mem hnd hw
  rw [h1] at h2
  exact (Option.some.injEq _ _).mp h2

theorem alookup_map_pair {α β : Type} (f : String → α → β) :
    ∀ (l : List (String × α)) (i : String),
    alookup (l.map (fun p => (p.1, f p.1 p.2))) i
      = (alookup l i).map (fun v => f i v) := by
  intro l
  induction l with
  | nil => intro i; rfl
  | cons p rest ih =>
    intro i
    by_cases hp : p.1 = i
    · subst hp
      simp [alookup]
    · simp [alookup, hp, ih]

theorem mem_sadd (l : List String) (i j : String) :
    j ∈ sadd l i ↔ j ∈ l ∨ j = i := by
  by_cases h : i ∈ l
  · simp only [sadd, if_pos h]
    constructor
    · exact Or.inl
    · rintro (hj | rfl)
      · exact hj
      · exact h
  · simp [sadd, if_neg h]

/-! ### Behaviour of one save -/

theorem save_meta_self (now i : String) (s : ExecState) (st : Store) :
    alookup (save_state_async now i s st).meta i
      = some (projectMeta i
          { s with saved_at := some now, execution_id := some i }) := by
  simp [save_state_async, alookup_upsert_self]

theorem save_load_self (now i : String) (s : ExecState) (st : Store) :
    load_state_async (save_state_async now i s st) i
      = some { s with saved_at := some now, execution_id := some i } := by
  simp [load_state_async, save_state_async, alookup_upsert_self]

theorem mem_save_index (now i j : String) (s : ExecState) (st : Store)
    (S : Status) :
    j ∈ (save_state_async now i s st).index S ↔
      j ∈ st.index S ∨ (j = i ∧ s.status.getD .running = S) := by
  show j ∈ Function.update st.index (s.status.getD .running)
      (sadd (st.index (s.status.getD .running)) i) S ↔ _
  rw [Function.update_apply]
  by_cases hS : S = s.status.getD .running
  · rw [if_pos hS, mem_sadd, hS]
    constructor
    · rintro (h | h)
      · exact Or.inl h
      · exact Or.inr ⟨h, rfl⟩
    · rintro (h | ⟨h, _⟩)
      · exact Or.inl h
      · exact Or.inr h
  · rw [if_neg hS]
    constructor
    · exact Or.inl
    · rintro (h | ⟨_, h⟩)
      · exact h
      · exact absurd h.symm hS

theorem filter_eq_key_of_filter_ne {α : Type} (k : String)
    (l : List (String × α)) :
    (l.filter (fun p => p.1 ≠ k)).filter (fun p => p.1 = k) = [] := by
  induction l with
  | nil => rfl
  | cons p rest ih =>
    rw [List.filter_cons]
    by_cases hp : p.1 = k
    · rw [if_neg (by simp [hp])]
      exact ih
    · rw [if_pos (by simp [hp]), List.filter_cons, if_neg (by simp [hp])]
      exact ih

theorem filter_eq_key_upsert {α : Type} (k : String) (v : α)
    (l : List (String × α)) :
    (upsert k v l).filter (fun p => p.1 = k) = [(k, v)] := by
  show List.filter _ ((k, v) :: _) = _
  rw [List.filter_cons, if_pos (by simp), filter_eq_key_of_filter_ne]

/-! ### Shared concrete fixtures for the witness instances -/

/-- A concrete checkpoint state. -/
def mkState (st : Status) (ts : String) (pl : String) : ExecState :=
  { payload := pl, step_index := some 0, step_name := some "step",
    status := some st, error := none, timestamp := some ts,
    saved_at := none, execution_id := none }

/-- A one-record store produced by a single save. -/
def wStore : Store :=
  save_state_async "n0" "i" (mkState .running "t0" "p0") emptyStore

/-- The state `wStore` holds under id `"i"` (the saved state with its
stamps). -/
def wStamped : ExecState :=
  { mkState .running "t0" "p0" with
      saved_at := some "n0", execution_id := some "i" }

/-! ### C3: overwrite semantics (last-write-wins, no history) -/

/-- C3: after two successive saves under the same execution
identifier, the primary keyspace holds exactly one record for that
identifier, and loading it returns the second save's content (the
second state with its `saved_at` and `execution_id` stamps); no
record of the first save remains. -/
theorem save_twice_last_write_wins (store : Store) (i n1 n2 : String)
    (s1 s2 : ExecState) :
    (((save_state_async n2 i s2 (save_state_async n1 i s1 store)).primary.filter
        (fun p => p.1 = i)).length = 1)
    ∧ load_state_async (save_state_async n2 i s2 (save_state_async n1 i s1 store)) i
        = some { s2 with saved_at := some n2, execution_id := some i } := by
  constructor
  · show ((upsert i _ (save_state_async n1 i s1 store).primary).filter
      (fun p => p.1 = i)).length = 1
    rw [filter_eq_key_upsert]
    rfl
  · exact save_load_self n2 i s2 _

/-- C3 witness: the double save evaluated on a concrete store. -/
theorem save_twice_last_write_wins_witness :
    (((save_state_async "n2" "i" (mkState .paused "t2" "p2")
        (save_state_async "n1" "i" (mkState .running "t1" "p1")
          emptyStore)).primary.filter (fun p => p.1 = "i")).length = 1)
    ∧ load_state_async
        (save_state_async "n2" "i" (mkState .paused "t2" "p2")
          (save_state_async "n1" "i" (mkState .running "t1" "p1")
            emptyStore)) "i"
        = some { mkState .paused "t2" "p2" with
            saved_at := some "n2", execution_id := some "i" } :=
  save_twice_last_write_wins emptyStore "i" "n1" "n2"
    (mkState .running "t1" "p1") (mkState .paused "t2" "p2")

/-! ### C4: load returns absent for missing or undecodable records -/

/-- C4: loading never throws and never yields a partial record: the
result is `none` exactly when the primary key is missing or its blob
fails to decode, and it is `some s` exactly when the stored blob
decodes to the complete state `s`. -/
theorem load_absent_on_missing_or_corrupt (store : Store) (i : String) :
    (load_state_async store i = none ↔
      (alookup store.primary i = none ∨
       alookup store.primary i = some Blob.bad))
    ∧ (∀ s, load_state_async store i = some s ↔
        alookup store.primary i = some (Blob.ok s)) := by
  rcases h : alookup store.primary i with _ | b
  · simp [load_state_async, h]
  · cases b <;> simp [load_state_async, h]

/-- C4 witness: a store holding one well-formed record and one
undecodable blob, evaluated through the theorem. -/
theorem load_absent_on_missing_or_corrupt_witness :
    (load_state_async
        { primary := [("good", Blob.ok (mkState .running "t" "p")), ("corrupt", Blob.bad)]
          meta := []
          index := fun _ => [] } "corrupt" = none)
    ∧ (load_state_async
        { primary := [("good", Blob.ok (mkState .running "t" "p")), ("corrupt", Blob.bad)]
          meta := []
          index := fun _ => [] } "missing" = none)
    ∧ (load_state_async
        { primary := [("good", Blob.ok (mkState .running "t" "p")), ("corrupt", Blob.bad)]
          meta := []
          index := fun _ => [] } "good" = some (mkState .running "t" "p")) :=
  ⟨(load_absent_on_missing_or_corrupt _ "corrupt").1.mpr (Or.inr (by decide)),
   (load_absent_on_missing_or_corrupt _ "missing").1.mpr (Or.inl (by decide)),
   ((load_absent_on_missing_or_corrupt _ "good").2 _).mpr (by decide)⟩

/-! ### C10: a zero limit means no truncation -/

/-- C10: `list` with `limit = 0` returns the full result sequence,
identical to `limit = None`, because the Python truncation is guarded
by the truthiness test `if limit:` and `0` is falsy. -/
theorem list_limit_zero_means_full (store : Store) (status : Option Status) :
    list_executions_async store status (some 0)
      = list_executions_async store status none := rfl

/-- C10 witness: the zero-limit call on a concrete populated store. -/
theorem list_limit_zero_means_full_witness :
    list_executions_async wStore none (some 0)
      = list_executions_async wStore none none :=
  list_limit_zero_means_full wStore none

/-! ### C8: blocking variants inside a running event loop -/

/-- C8 counterexample: `save_checkpoint` invoked while the thread's
event loop is running does not fail with the wrong-context error —
it schedules the coroutine as a background task and returns. -/
theorem save_checkpoint_in_loop_not_error :
    ¬ (save_checkpoint true = SyncOutcome.wrongContextError) := by decide

/-- C8 amended: inside a running event loop the load-like blocking
variants (`load_checkpoint`, `get_execution_info`, `load_by_id`) fail
fast with the wrong-context `RuntimeError` (raised by `asyncio.run`
after the method's own guard exception is swallowed by its
`except RuntimeError` clause), while the save-like blocking variants
(`save_checkpoint`, `mark_completed`, `mark_failed`) do not fail at
all: they schedule the coroutine as a background task on the running
loop and return immediately.  Outside a running loop every variant
runs to completion synchronously. -/
theorem blocking_variant_dispatch :
    (load_checkpoint true = SyncOutcome.wrongContextError
      ∧ get_execution_info true = SyncOutcome.wrongContextError
      ∧ load_by_id true = SyncOutcome.wrongContextError)
    ∧ (save_checkpoint true = SyncOutcome.backgroundTask
      ∧ mark_completed true = SyncOutcome.backgroundTask
      ∧ mark_failed true = SyncOutcome.backgroundTask)
    ∧ (save_checkpoint false = SyncOutcome.completedSync
      ∧ load_checkpoint false = SyncOutcome.completedSync
      ∧ mark_completed false = SyncOutcome.completedSync
      ∧ mark_failed false = SyncOutcome.completedSync
      ∧ get_execution_info false = SyncOutcome.completedSync
      ∧ load_by_id false = SyncOutcome.completedSync) := by decide

/-! ### C1: status-index membership across a sequence of saves -/

/-- A sequence of saves for one execution identifier, each carrying
its own wall-clock stamp, applied in order. -/
def applySaves (i : String) (l : List (String × ExecState))
    (store : Store) : Store :=
  l.foldl (fun st q => save_state_async q.1 i q.2 st) store

/-- The store after saving id `"i"` first with status `running`, then
with status `completed`. -/
def c1Store : Store :=
  save_state_async "n2" "i" (mkState .completed "t2" "b")
    (save_state_async "n1" "i" (mkState .running "t1" "a") emptyStore)

/-- C1 counterexample: after a save sequence that moves id `"i"` from
`running` to `completed`, the metadata projection reports `completed`,
yet `"i"` is still a member of the `running` status index — the
claimed "removed from its old status's index" direction of the
if-and-only-if fails, because `save_state_async` issues only `SADD`
for the new status and never `SREM` for the old one. -/
theorem index_iff_meta_status_counterexample :
    ¬ (("i" ∈ c1Store.index Status.running) ↔
       (alookup c1Store.meta "i").map Metadata.status
         = some Status.running) := by decide

theorem applySaves_index_mem (i : String) (S : Status) :
    ∀ (l : List (String × ExecState)) (st : Store),
    i ∈ (applySaves i l st).index S ↔
      i ∈ st.index S ∨ ∃ q ∈ l, q.2.status.getD .running = S := by
  intro l
  induction l with
  | nil => intro st; simp [applySaves]
  | cons q rest ih =>
    intro st
    show i ∈ (applySaves i rest (save_state_async q.1 i q.2 st)).index S ↔ _
    rw [ih]
    rw [mem_save_index]
    constructor
    · rintro ((h | ⟨_, h⟩) | ⟨r, hr, h⟩)
      · exact Or.inl h
      · exact Or.inr ⟨q, List.mem_cons_self _ _, h⟩
      · exact Or.inr ⟨r, List.mem_cons_of_mem _ hr, h⟩
    · rintro (h | ⟨r, hr, h⟩)
      · exact Or.inl (Or.inl h)
      · rcases List.mem_cons.mp hr with rfl | hr2
        · exact Or.inl (Or.inr ⟨rfl, h⟩)
        · exact Or.inr ⟨r, hr2, h⟩

/-- C1 amended: over any non-empty sequence of saves for identifier
`i` starting from the empty store, the metadata projection reports
the status of the LAST save, while the status index for `S` contains
`i` if and only if SOME save in the sequence carried status `S`: a
status-changing save adds `i` to the new status's index but does not
remove it from the old one, so index membership accumulates instead
of tracking the current status. -/
theorem save_index_accumulates (i : String)
    (l : List (String × ExecState)) (q : String × ExecState) :
    ((alookup (applySaves i (l ++ [q]) emptyStore).meta i).map
        Metadata.status = some (q.2.status.getD .running))
    ∧ (∀ S, i ∈ (applySaves i (l ++ [q]) emptyStore).index S ↔
        ∃ r ∈ l ++ [q], r.2.status.getD .running = S) := by
  constructor
  · have hsplit : applySaves i (l ++ [q]) emptyStore
        = save_state_async q.1 i q.2 (applySaves i l emptyStore) := by
      show List.foldl _ _ (l ++ [q]) = _
      rw [List.foldl_append]
      rfl
    rw [hsplit, save_meta_self]
    rfl
  · intro S
    rw [applySaves_index_mem]
    have : i ∈ emptyStore.index S ↔ False := by simp [emptyStore]
    rw [this]
    simp only [false_or]

/-- C1 amended witness: the concrete running-then-completed sequence,
evaluated through the theorem: the metadata reports `completed` and
the index sets for both `running` and `completed` contain the id. -/
theorem save_index_accumulates_witness :
    ((alookup (applySaves "i"
        ([("n1", mkState .running "t1" "a")] ++ [("n2", mkState .completed "t2" "b")])
        emptyStore).meta "i").map Metadata.status = some Status.completed)
    ∧ ("i" ∈ (applySaves "i"
        ([("n1", mkState .running "t1" "a")] ++ [("n2", mkState .completed "t2" "b")])
        emptyStore).index Status.running) :=
  ⟨(save_index_accumulates "i" [("n1", mkState .running "t1" "a")]
      ("n2", mkState .completed "t2" "b")).1,
   ((save_index_accumulates "i" [("n1", mkState .running "t1" "a")]
      ("n2", mkState .completed "t2" "b")).2 Status.running).mpr
     ⟨("n1", mkState .running "t1" "a"), by decide, rfl⟩⟩

/-! ### C2: rebuild_indexes restores index consistency -/

theorem clear_all_indexes_index (store : Store) (S : Status) :
    (clear_all_indexes store).index S = [] := by
  cases S <;> simp [clear_all_indexes, Function.update_apply]

theorem rebuildFold_index_mem (i : String) (S : Status) :
    ∀ (entries : List (String × Metadata)) (st : Store),
    i ∈ (entries.foldl (fun st p =>
        if p.2.execution_id ≠ "" then
          { st with index :=
              (Function.update st.index p.2.status
                (sadd (st.index p.2.status) p.2.execution_id)) }
        else st) st).index S ↔
      i ∈ st.index S ∨ ∃ p ∈ entries,
        p.2.execution_id = i ∧ p.2.execution_id ≠ "" ∧ p.2.status = S := by
  intro entries
  induction entries with
  | nil => intro st; simp
  | cons p rest ih =>
    intro st
    rw [List.foldl_cons]
    by_cases hp : p.2.execution_id ≠ ""
    · rw [if_pos hp, ih]
      have hupd : i ∈ ({ st with index :=
          (Function.update st.index p.2.status
            (sadd (st.index p.2.status) p.2.execution_id)) } : Store).index S
          ↔ (i ∈ st.index S ∨ (p.2.execution_id = i ∧ p.2.status = S)) := by
        show i ∈ Function.update st.index p.2.status
          (sadd (st.index p.2.status) p.2.execution_id) S ↔ _
        rw [Function.update_apply]
        by_cases hS : S = p.2.status
        · rw [if_pos hS, mem_sadd, hS]
          constructor
          · rintro (h | h)
            · exact Or.inl h
            · exact Or.inr ⟨h.symm, rfl⟩
          · rintro (h | ⟨h, _⟩)
            · exact Or.inl h
            · exact Or.inr h.symm
        · rw [if_neg hS]
          constructor
          · exact Or.inl
          · rintro (h | ⟨_, h⟩)
            · exact h
            · exact absurd h.symm hS
      rw [hupd]
      constructor
      · rintro ((h | ⟨h1, h2⟩) | ⟨r, hr, h1, h2, h3⟩)
        · exact Or.inl h
        · exact Or.inr ⟨p, List.mem_cons_self _ _, h1, hp, h2⟩
        · exact Or.inr ⟨r, List.mem_cons_of_mem _ hr, h1, h2, h3⟩
      · rintro (h | ⟨r, hr, h1, h2, h3⟩)
        · exact Or.inl (Or.inl h)
        · rcases List.mem_cons.mp hr with rfl | hr2
          · exact Or.inl (Or.inr ⟨h1, h3⟩)
          · exact Or.inr ⟨r, hr2, h1, h2, h3⟩
    · rw [if_neg hp, ih]
      constructor
      · rintro (h | ⟨r, hr, h1, h2, h3⟩)
        · exact Or.inl h
        · exact Or.inr ⟨r, List.mem_cons_of_mem _ hr, h1, h2, h3⟩
      · rintro (h | ⟨r, hr, h1, h2, h3⟩)
        · exact Or.inl h
        · rcases List.mem_cons.mp hr with rfl | hr2
          · exact absurd h2 hp
          · exact Or.inr ⟨r, hr2, h1, h2, h3⟩

/-- C2: after `rebuild_indexes`, an id is a member of a status's index
set exactly when its metadata hash reports that status, no matter how
inconsistent the index sets were beforehand.  The hypotheses say only
that the metadata hashes themselves are well formed, as every save
writes them: each hash's `execution_id` field equals its key and ids
are non-empty, with one hash per id. -/
theorem rebuild_indexes_restores_index_consistency (store : Store)
    (hwf : ∀ p ∈ store.meta, p.2.execution_id = p.1 ∧ p.1 ≠ "")
    (hnd : (store.meta.map (fun p => p.1)).Nodup) :
    ∀ i S, i ∈ (rebuild_indexes store).index S ↔
      ∃ m, alookup store.meta i = some m ∧ m.status = S := by
  intro i S
  show i ∈ (store.meta.foldl _ (clear_all_indexes store)).index S ↔ _
  rw [rebuildFold_index_mem, clear_all_indexes_index]
  constructor
  · rintro (h | ⟨p, hp, h1, h2, h3⟩)
    · simp at h
    · refine ⟨p.2, ?_, h3⟩
      have hk : p.1 = i := by rw [← (hwf p hp).1, h1]
      have hmem : (i, p.2) ∈ store.meta := by
        rw [← hk]
        exact hp
      exact alookup_eq_some_of_mem hnd hmem
  · rintro ⟨m, hm, hS⟩
    right
    have hmem := mem_of_alookup_eq_some hm
    have hw := hwf (i, m) hmem
    exact ⟨(i, m), hmem, hw.1, by rw [hw.1]; exact hw.2, hS⟩

/-- A store whose metadata is well formed but whose index sets have
drifted arbitrarily: every index set contains both ids and a dangling
id `"z"`. -/
def c2Store : Store :=
  { primary := []
    meta := [("x", projectMeta "x" (mkState .running "t1" "p")),
             ("y", projectMeta "y" (mkState .failed "t2" "q"))]
    index := fun _ => ["x", "y", "z"] }

/-- C2 witness: before the rebuild, `"x"` sits wrongly in the
`completed` index; applying the theorem shows that after the rebuild
`"x"` is in the `running` index, matching its metadata status. -/
theorem rebuild_indexes_restores_index_consistency_witness :
    ("x" ∈ c2Store.index Status.completed)
    ∧ ("x" ∈ (rebuild_indexes c2Store).index Status.running) :=
  ⟨by decide,
   ((rebuild_indexes_restores_index_consistency c2Store (by decide)
      (by decide)) "x" Status.running).mpr
     ⟨projectMeta "x" (mkState .running "t1" "p"), by decide, by decide⟩⟩

/-! ### C6 and C7: manager finalisation operations -/

theorem load_primary_none (pr : List (String × Blob))
    (me : List (String × Metadata)) (ix : Status → List String)
    (i : String) (hpr : alookup pr i = none) :
    load_state_async { primary := pr, meta := me, index := ix } i = none := by
  simp [load_state_async, hpr]

theorem load_after_delete (store : Store) (i : String) :
    load_state_async (delete_state_async store i).1 i = none := by
  rcases h : load_state_async store i with _ | s <;>
    · simp only [delete_state_async]
      rw [h]
      exact load_primary_none _ _ _ i (alookup_filter_self i store.primary)

/-- C6: for a manager whose record exists, `mark_completed` with
auto-cleanup enabled deletes the record (a subsequent load returns
absent); with auto-cleanup disabled it loads the record, sets its
status to `completed`, and re-saves, so a subsequent load returns the
record with `status = completed` (freshly stamped). -/
theorem mark_completed_deletes_or_updates (d : DurableExecution)
    (now : String) (store : Store) (s : ExecState)
    (hs : load_state_async store d.execution_id = some s) :
    (d.auto_cleanup = true →
       load_state_async (mark_completed_async d now store) d.execution_id
         = none)
    ∧ (d.auto_cleanup = false →
       load_state_async (mark_completed_async d now store) d.execution_id
         = some ({ s with
                  status := some .completed,
                  saved_at := some now,
                  execution_id := some d.execution_id })) := by
  constructor
  · intro h
    simp only [mark_completed_async, h, if_true]
    exact load_after_delete store d.execution_id
  · intro h
    simp only [mark_completed_async, h, if_false, hs]
    exact save_load_self now d.execution_id _ store

/-- C6 witness: both manager configurations evaluated on the concrete
one-record store. -/
theorem mark_completed_deletes_or_updates_witness :
    (load_state_async (mark_completed_async ⟨"i", true⟩ "n1" wStore) "i"
        = none)
    ∧ (load_state_async (mark_completed_async ⟨"i", false⟩ "n1" wStore) "i"
        = some ({ wStamped with
                 status := some .completed,
                 saved_at := some "n1", execution_id := some "i" })) :=
  ⟨(mark_completed_deletes_or_updates ⟨"i", true⟩ "n1" wStore wStamped
      (by decide)).1 rfl,
   (mark_completed_deletes_or_updates ⟨"i", false⟩ "n1" wStore wStamped
      (by decide)).2 rfl⟩

/-- C7: `mark_failed` loads the current record and, when one exists,
re-saves it with `status = failed` and the given error string; when no
record exists for the manager's execution identifier, the store is
left completely unchanged. -/
theorem mark_failed_updates_or_noop (d : DurableExecution)
    (err now : String) (store : Store) :
    (∀ s, load_state_async store d.execution_id = some s →
       load_state_async (mark_failed_async d err now store) d.execution_id
         = some ({ s with
                  status := some .failed, error := some err,
                  saved_at := some now,
                  execution_id := some d.execution_id }))
    ∧ (load_state_async store d.execution_id = none →
       mark_failed_async d err now store = store) := by
  constructor
  · intro s hs
    simp only [mark_failed_async, hs]
    exact save_load_self now d.execution_id _ store
  · intro h
    simp [mark_failed_async, h]

/-- C7 witness: the update on the concrete one-record store, and the
no-op on the empty store. -/
theorem mark_failed_updates_or_noop_witness :
    (load_state_async (mark_failed_async ⟨"i", true⟩ "boom" "n1" wStore) "i"
        = some ({ wStamped with
                 status := some .failed, error := some "boom",
                 saved_at := some "n1", execution_id := some "i" }))
    ∧ (mark_failed_async ⟨"i", true⟩ "boom" "n1" emptyStore = emptyStore) :=
  ⟨(mark_failed_updates_or_noop ⟨"i", true⟩ "boom" "n1" wStore).1 wStamped
      (by decide),
   (mark_failed_updates_or_noop ⟨"i", true⟩ "boom" "n1" emptyStore).2 rfl⟩

/-! ### C9: list returns sorted metadata projections -/

/-- C9: `list(status?, limit?)` returns metadata projections (the
seven-field rows), read from the status's index set when a status is
supplied and from a scan of all metadata keys otherwise; the result
is the truncation (applied only after sorting) of a sequence that is
sorted by timestamp descending and is a permutation of the selected
rows, and every returned row is a stored metadata hash, so both paths
produce rows of identical shape. -/
theorem list_executions_sorted_and_projected (store : Store)
    (status : Option Status) (limit : Option Nat) :
    ∃ full : List Metadata,
      list_executions_async store status limit = applyLimit limit full
      ∧ List.Sorted tsDescRel full
      ∧ full.Perm ((status.elim (store.meta.map (fun p => p.1))
          (fun S => store.index S)).filterMap (fun i => alookup store.meta i))
      ∧ ∀ m ∈ full, ∃ i, alookup store.meta i = some m := by
  refine ⟨List.insertionSort tsDescRel (selectedMetas store status), rfl,
    List.sorted_insertionSort tsDescRel _, ?_, ?_⟩
  · have heq : (status.elim (store.meta.map (fun p => p.1))
        (fun S => store.index S)).filterMap (fun i => alookup store.meta i)
        = selectedMetas store status := by
      cases status <;> rfl
    rw [heq]
    exact List.perm_insertionSort tsDescRel _
  · intro m hm
    have hmem : m ∈ selectedMetas store status :=
      (List.perm_insertionSort tsDescRel _).mem_iff.mp hm
    rcases List.mem_filterMap.mp hmem with ⟨i, _, hlook⟩
    exact ⟨i, hlook⟩

/-- A parse table for concrete timestamps (kernel-reducible stand-in
for ISO-8601 parsing). -/
def demoParse : String → Option Int := fun s =>
  if s = "1" then some 1 else if s = "2" then some 2
  else if s = "3" then some 3 else if s = "5" then some 5
  else if s = "20" then some 20 else none

/-- A store population covering all four statuses, old and young
terminal records, and records with a missing (empty) or unparsable
timestamp. -/
def demoRecs : List (String × ExecState) :=
  [("a", mkState .running "5" "pa"), ("b", mkState .paused "1" "pb"),
   ("c", mkState .completed "3" "pc"), ("d", mkState .completed "20" "pd"),
   ("e", mkState .failed "2" "pe"),
   ("f", mkState .failed "" "pf"),
   ("g", mkState .failed "xx" "pg")]

/-- C9 witness: the filtered listing of the demo store returns the
three failed rows in descending timestamp order, and the theorem
instantiates at that call. -/
theorem list_executions_sorted_and_projected_witness :
    ((list_executions_async (mkStore demoRecs) (some .failed) none).map
        Metadata.execution_id = ["g", "e", "f"])
    ∧ ∃ full : List Metadata,
      list_executions_async (mkStore demoRecs) (some .failed) none
          = applyLimit none full
      ∧ List.Sorted tsDescRel full
      ∧ full.Perm (((some Status.failed).elim
          ((mkStore demoRecs).meta.map (fun p => p.1))
          (fun S => (mkStore demoRecs).index S)).filterMap
            (fun i => alookup (mkStore demoRecs).meta i))
      ∧ ∀ m ∈ full, ∃ i, alookup (mkStore demoRecs).meta i = some m :=
  ⟨by decide,
   list_executions_sorted_and_projected (mkStore demoRecs)
     (some .failed) none⟩

/-! ### C5: cleanup on a consistent store -/

theorem alookup_mkStore_primary (recs : List (String × ExecState))
    (i : String) :
    alookup (mkStore recs).primary i = (alookup recs i).map Blob.ok :=
  alookup_map_pair (fun _ s => Blob.ok s) recs i

theorem alookup_mkStore_meta (recs : List (String × ExecState))
    (i : String) :
    alookup (mkStore recs).meta i = (alookup recs i).map (projectMeta i) :=
  alookup_map_pair projectMeta recs i

theorem load_mkStore (recs : List (String × ExecState)) (i : String) :
    load_state_async (mkStore recs) i = alookup recs i := by
  cases h : alookup recs i <;>
    simp [load_state_async, alookup_mkStore_primary, h]

theorem keys_filter_nodup {α : Type} (q : String × α → Bool)
    (l : List (String × α)) (h : (l.map (fun p => p.1)).Nodup) :
    ((l.filter q).map (fun p => p.1)).Nodup :=
  h.sublist ((l.filter_sublist).map (fun p => p.1))

theorem filter_key_map_pair {α β : Type} (f : String → α → β)
    (q : String → Bool) (l : List (String × α)) :
    (l.map (fun p => (p.1, f p.1 p.2))).filter (fun p => q p.1)
      = (l.filter (fun p => q p.1)).map (fun p => (p.1, f p.1 p.2)) := by
  induction l with
  | nil => rfl
  | cons p rest ih =>
    rw [List.map_cons, List.filter_cons, List.filter_cons]
    cases hq : q p.1
    · simpa [hq] using ih
    · simpa [hq] using ih

theorem filter_map_fst {α : Type} (q : String → Bool)
    (l : List (String × α)) :
    (l.map (fun p => p.1)).filter q
      = (l.filter (fun p => q p.1)).map (fun p => p.1) := by
  induction l with
  | nil => rfl
  | cons p rest ih =>
    rw [List.map_cons, List.filter_cons, List.filter_cons]
    cases hq : q p.1
    · simpa [hq] using ih
    · simpa [hq] using ih

theorem filter_key_eq {α : Type} :
    ∀ (recs : List (String × α)),
    (recs.map (fun p => p.1)).Nodup → ∀ (i : String) (r : α),
    alookup recs i = some r →
    recs.filter (fun p => decide (p.1 = i)) = [(i, r)] := by
  intro recs
  induction recs with
  | nil => intro _ i r hr; simp [alookup] at hr
  | cons p rest ih =>
    intro hnd i r hr
    rw [List.map_cons, List.nodup_cons] at hnd
    rw [List.filter_cons]
    by_cases hp : p.1 = i
    · rw [if_pos (by simp [hp])]
      have hpr : p.2 = r := by
        have : some p.2 = some r := by
          rw [← hr]
          show some p.2 = alookup (p :: rest) i
          simp [alookup, hp]
        exact (Option.some.injEq _ _).mp this
      have hrest : rest.filter (fun q => decide (q.1 = i)) = [] := by
        rw [List.filter_eq_nil_iff]
        intro q hq
        simp only [decide_eq_true_eq]
        intro hqi
        exact hnd.1 (by
          rw [← hp, ← hqi] at *
          exact List.mem_map.mpr ⟨q, hq, rfl⟩)
      rw [hrest]
      obtain ⟨p1, p2⟩ := p
      simp only at hp hpr
      rw [hp, hpr]
    · rw [if_neg (by simp [hp])]
      have hr2 : alookup rest i = some r := by
        have : alookup (p :: rest) i = alookup rest i := by
          simp [alookup, hp]
        rw [← this, hr]
      exact ih hnd.2 i r hr2

theorem length_filter_or_disjoint {α : Type} (p q : α → Bool) :
    ∀ l : List α, (∀ a ∈ l, ¬(p a = true ∧ q a = true)) →
    (l.filter (fun a => p a || q a)).length
      = (l.filter p).length + (l.filter q).length := by
  intro l
  induction l with
  | nil => intro _; rfl
  | cons a rest ih =>
    intro h
    have hrest := fun b hb => h b (List.mem_cons_of_mem _ hb)
    have ha := h a (List.mem_cons_self _ _)
    rw [List.filter_cons, List.filter_cons, List.filter_cons]
    cases hp : p a
    · cases hq : q a
      · simpa [hp, hq] using ih hrest
      · simp only [hp, hq, Bool.false_or, if_pos, if_neg, Bool.false_eq_true,
          not_false_eq_true, List.length_cons, if_true]
        rw [ih hrest]
        omega
    · cases hq : q a
      · simp only [hp, hq, Bool.true_or, Bool.false_eq_true, List.length_cons,
          if_true, if_neg, not_false_eq_true]
        rw [ih hrest]
        omega
      · exact absurd ⟨hp, hq⟩ ha

theorem delete_mkStore (recs : List (String × ExecState))
    (hnd : (recs.map (fun p => p.1)).Nodup) (i : String) (r : ExecState)
    (hr : alookup recs i = some r) :
    delete_state_async (mkStore recs) i
      = (mkStore (recs.filter (fun p => p.1 ≠ i)), true) := by
  have hload : load_state_async (mkStore recs) i = some r := by
    rw [load_mkStore, hr]
  have hprim : (mkStore recs).primary.filter (fun p => p.1 ≠ i)
      = (mkStore (recs.filter (fun p => p.1 ≠ i))).primary :=
    filter_key_map_pair (fun _ s => Blob.ok s) (fun k => decide (k ≠ i)) recs
  have hmeta : (mkStore recs).meta.filter (fun p => p.1 ≠ i)
      = (mkStore (recs.filter (fun p => p.1 ≠ i))).meta :=
    filter_key_map_pair projectMeta (fun k => decide (k ≠ i)) recs
  have hidx : Function.update (mkStore recs).index (r.status.getD .running)
      (((mkStore recs).index (r.status.getD .running)).filter
        (fun j => j ≠ i))
      = (mkStore (recs.filter (fun p => p.1 ≠ i))).index := by
    funext S
    rw [Function.update_apply]
    by_cases hS : S = r.status.getD .running
    · rw [if_pos hS]
      show ((recs.filter (fun p => p.2.status.getD .running
          = r.status.getD .running)).map (fun p => p.1)).filter
            (fun j => j ≠ i)
        = ((recs.filter (fun p => p.1 ≠ i)).filter
            (fun p => p.2.status.getD .running = S)).map (fun p => p.1)
      rw [filter_map_fst (fun k => decide (k ≠ i))]
      rw [List.filter_filter, List.filter_filter]
      congr 1
      apply List.filter_congr
      intro a _
      rw [hS]
      exact Bool.and_comm _ _
    · rw [if_neg hS]
      show ((recs.filter (fun p => p.2.status.getD .running = S)).map
          (fun p => p.1))
        = ((recs.filter (fun p => p.1 ≠ i)).filter
            (fun p => p.2.status.getD .running = S)).map (fun p => p.1)
      rw [List.filter_filter]
      congr 1
      apply List.filter_congr
      intro a ha
      by_cases hai : a.1 = i
      · have har : a.2 = r := by
          have hmem : (i, a.2) ∈ recs := by
            rw [← hai]
            exact ha
          exact key_unique hnd hmem (mem_of_alookup_eq_some hr)
        have : decide (a.2.status.getD .running = S) = false := by
          simp only [decide_eq_false_iff_not]
          rw [har]
          exact fun hc => hS hc.symm
        simp [this]
      · simp [hai]
  have hbool : ((alookup (mkStore recs).primary i).isSome
      || (alookup (mkStore recs).meta i).isSome
      || decide (i ∈ (mkStore recs).index (r.status.getD .running)))
      = true := by
    rw [alookup_mkStore_primary, hr]
    rfl
  simp only [delete_state_async]
  rw [hload]
  rw [Prod.mk.injEq]
  constructor
  · rw [Store.mk.injEq]
    exact ⟨hprim, hmeta, hidx⟩
  · exact hbool

theorem cleanupStep_mkStore (parse : String → Option Int) (cutoff : Int)
    (recs : List (String × ExecState))
    (hnd : (recs.map (fun p => p.1)).Nodup) (cnt : Nat) (i : String)
    (r : ExecState) (hr : alookup recs i = some r) :
    cleanupStep parse cutoff (mkStore recs, cnt) i
      = if tsOldB parse cutoff r
        then (mkStore (recs.filter (fun p => p.1 ≠ i)), cnt + 1)
        else (mkStore recs, cnt) := by
  have hm : alookup (mkStore recs).meta i = some (projectMeta i r) := by
    rw [alookup_mkStore_meta, hr]
    rfl
  have hstep : cleanupStep parse cutoff (mkStore recs, cnt) i
      = if (projectMeta i r).timestamp = "" then (mkStore recs, cnt)
        else match parse (projectMeta i r).timestamp with
          | none => (mkStore recs, cnt)
          | some t =>
            if t < cutoff then
              ((delete_state_async (mkStore recs) i).1,
               if (delete_state_async (mkStore recs) i).2 then cnt + 1 else cnt)
            else (mkStore recs, cnt) := by
    simp only [cleanupStep]
    rw [hm]
  rw [hstep]
  have hts : (projectMeta i r).timestamp = pyOrStr r.timestamp "" := rfl
  rw [hts]
  by_cases h1 : pyOrStr r.timestamp "" = ""
  · rw [if_pos h1]
    have : tsOldB parse cutoff r = false := by
      simp [tsOldB, h1]
    rw [this]
    rfl
  · rw [if_neg h1]
    rcases h2 : parse (pyOrStr r.timestamp "") with _ | t
    · show ((mkStore recs, cnt) : Store × Nat) = _
      have : tsOldB parse cutoff r = false := by
        simp [tsOldB, h1, h2]
      rw [this]
      rfl
    · show (if t < cutoff then _ else ((mkStore recs, cnt) : Store × Nat)) = _
      by_cases h3 : t < cutoff
      · rw [if_pos h3]
        have hold : tsOldB parse cutoff r = true := by
          simp [tsOldB, h1, h2, h3]
        rw [hold, if_pos rfl]
        rw [delete_mkStore recs hnd i r hr]
        rfl
      · rw [if_neg h3]
        have : tsOldB parse cutoff r = false := by
          simp [tsOldB, h1, h2, h3]
        rw [this]
        rfl

theorem cleanup_foldl_mkStore (parse : String → Option Int) (cutoff : Int) :
    ∀ (ids : List String) (recs : List (String × ExecState)) (cnt : Nat),
    (recs.map (fun p => p.1)).Nodup → ids.Nodup →
    (∀ j ∈ ids, (alookup recs j).isSome) →
    ids.foldl (cleanupStep parse cutoff) (mkStore recs, cnt)
      = (mkStore (recs.filter
          (fun p => !(decide (p.1 ∈ ids) && tsOldB parse cutoff p.2))),
         cnt + (recs.filter
          (fun p => decide (p.1 ∈ ids) && tsOldB parse cutoff p.2)).length) := by
  intro ids
  induction ids with
  | nil =>
    intro recs cnt hnd _ _
    simp
  | cons i rest ih =>
    intro recs cnt hnd hidnd hmem
    have hirest : i ∉ rest := (List.nodup_cons.mp hidnd).1
    obtain ⟨r, hr⟩ : ∃ r, alookup recs i = some r := by
      have hsome := hmem i (List.mem_cons_self _ _)
      rcases h : alookup recs i with _ | r
      · rw [h] at hsome
        simp at hsome
      · exact ⟨r, rfl⟩
    have hval : ∀ p ∈ recs, p.1 = i → p.2 = r := by
      intro p hp hpi
      refine key_unique hnd ?_ (mem_of_alookup_eq_some hr)
      rw [← hpi]
      exact hp
    have hmemrest : ∀ j ∈ rest, (alookup recs j).isSome :=
      fun j hj => hmem j (List.mem_cons_of_mem _ hj)
    rw [List.foldl_cons, cleanupStep_mkStore parse cutoff recs hnd cnt i r hr]
    by_cases ho : tsOldB parse cutoff r = true
    · rw [if_pos ho]
      have hnd' : ((recs.filter (fun p => p.1 ≠ i)).map
          (fun p => p.1)).Nodup := keys_filter_nodup _ _ hnd
      have hmem' : ∀ j ∈ rest,
          (alookup (recs.filter (fun p => p.1 ≠ i)) j).isSome := by
        intro j hj
        have hji : j ≠ i := fun hc => hirest (hc ▸ hj)
        rw [alookup_filter_ne i j _ hji]
        exact hmemrest j hj
      rw [ih _ (cnt + 1) hnd' (List.nodup_cons.mp hidnd).2 hmem']
      rw [Prod.mk.injEq]
      constructor
      · congr 1
        rw [List.filter_filter]
        apply List.filter_congr
        intro a ha
        by_cases hai : a.1 = i
        · have har : a.2 = r := hval a ha hai
          have h5 : (a.1 ∈ i :: rest) := by
            rw [hai]
            exact List.mem_cons_self _ _
          simp [hai, har, ho, h5]
        · have h5 : decide (a.1 ∈ i :: rest) = decide (a.1 ∈ rest) := by
            simp [List.mem_cons, hai]
          rw [h5]
          simp [hai]
      · have hA : (recs.filter (fun p => p.1 ≠ i)).filter
            (fun p => decide (p.1 ∈ rest) && tsOldB parse cutoff p.2)
            = recs.filter
                (fun p => decide (p.1 ∈ rest) && tsOldB parse cutoff p.2) := by
          rw [List.filter_filter]
          apply List.filter_congr
          intro a _
          by_cases hai : a.1 = i
          · have h6 : decide (a.1 ∈ rest) = false := by
              simp only [decide_eq_false_iff_not]
              rw [hai]
              exact hirest
            simp [h6]
          · simp [hai]
        have hB : (recs.filter
            (fun p => decide (p.1 ∈ i :: rest) && tsOldB parse cutoff p.2)).length
            = 1 + (recs.filter
                (fun p => decide (p.1 ∈ rest) && tsOldB parse cutoff p.2)).length := by
          have hsplit : recs.filter
              (fun p => decide (p.1 ∈ i :: rest) && tsOldB parse cutoff p.2)
              = recs.filter (fun p =>
                  (decide (p.1 = i) && tsOldB parse cutoff p.2)
                  || (decide (p.1 ∈ rest) && tsOldB parse cutoff p.2)) := by
            apply List.filter_congr
            intro a _
            have : decide (a.1 ∈ i :: rest)
                = (decide (a.1 = i) || decide (a.1 ∈ rest)) := by
              simp [List.mem_cons]
            rw [this]
            cases decide (a.1 = i) <;> cases decide (a.1 ∈ rest) <;>
              cases tsOldB parse cutoff a.2 <;> rfl
          rw [hsplit]
          rw [length_filter_or_disjoint _ _ recs (by
            intro a _ hcon
            rcases hcon with ⟨h7, h8⟩
            rw [Bool.and_eq_true, decide_eq_true_eq] at h7 h8
            exact hirest (h7.1 ▸ h8.1))]
          have hone : recs.filter
              (fun p => decide (p.1 = i) && tsOldB parse cutoff p.2)
              = [(i, r)] := by
            have hcomm : recs.filter
                (fun p => decide (p.1 = i) && tsOldB parse cutoff p.2)
                = (recs.filter (fun p => tsOldB parse cutoff p.2)).filter
                    (fun p => decide (p.1 = i)) := by
              rw [List.filter_filter]
            rw [hcomm]
            apply filter_key_eq
            · exact keys_filter_nodup _ _ hnd
            · apply alookup_eq_some_of_mem (keys_filter_nodup _ _ hnd)
              apply List.mem_filter.mpr
              exact ⟨mem_of_alookup_eq_some hr, ho⟩
          rw [hone]
          rfl
        rw [hA, hB]
        omega
    · rw [if_neg ho]
      rw [ih recs cnt hnd (List.nodup_cons.mp hidnd).2 hmemrest]
      have hobool : tsOldB parse cutoff r = false := by
        exact Bool.not_eq_true _ ▸ eq_false_of_ne_true ho
      have hcong : ∀ (b : Bool) (f : (String × ExecState) → Bool),
          True := fun _ _ => trivial
      rw [Prod.mk.injEq]
      constructor
      · congr 1
        apply List.filter_congr
        intro a ha
        by_cases hai : a.1 = i
        · have har : a.2 = r := hval a ha hai
          rw [har, hobool]
          simp
        · have h5 : decide (a.1 ∈ i :: rest) = decide (a.1 ∈ rest) := by
            simp [List.mem_cons, hai]
          rw [h5]
      · have : recs.filter
            (fun p => decide (p.1 ∈ i :: rest) && tsOldB parse cutoff p.2)
            = recs.filter
                (fun p => decide (p.1 ∈ rest) && tsOldB parse cutoff p.2) := by
          apply List.filter_congr
          intro a ha
          by_cases hai : a.1 = i
          · have har : a.2 = r := hval a ha hai
            rw [har, hobool]
            simp
          · have h5 : decide (a.1 ∈ i :: rest) = decide (a.1 ∈ rest) := by
              simp [List.mem_cons, hai]
            rw [h5]
        rw [this]

theorem mem_keys_filter_iff (recs : List (String × ExecState))
    (hnd : (recs.map (fun p => p.1)).Nodup) (q : String × ExecState → Bool)
    (p : String × ExecState) (hp : p ∈ recs) :
    (p.1 ∈ (recs.filter q).map (fun x => x.1)) ↔ q p = true := by
  constructor
  · intro h
    rcases List.mem_map.mp h with ⟨x, hx, hxe⟩
    have hx1 := List.mem_of_mem_filter hx
    have hq := (List.mem_filter.mp hx).2
    have hx2 : x.2 = p.2 := by
      refine key_unique (i := p.1) hnd ?_ ?_
      · rw [← hxe]
        exact hx1
      · exact hp
    have hxp : x = p := by
      obtain ⟨x1, x2⟩ := x
      obtain ⟨p1, p2⟩ := p
      simp only at hxe hx2
      rw [hxe, hx2]
    rw [← hxp]
    exact hq
  · intro h
    exact List.mem_map.mpr ⟨p, List.mem_filter.mpr ⟨hp, h⟩, rfl⟩

theorem alookup_isSome_of_mem_index (recs : List (String × ExecState))
    (q : String × ExecState → Bool) (j : String)
    (hj : j ∈ (recs.filter q).map (fun p => p.1)) :
    (alookup recs j).isSome := by
  rcases List.mem_map.mp hj with ⟨x, hx, hxe⟩
  have hmem := List.mem_of_mem_filter hx
  apply alookup_isSome_of_mem (v := x.2)
  rw [← hxe]
  exact hmem

theorem decide_mem_index_eq (recs : List (String × ExecState))
    (hnd : (recs.map (fun p => p.1)).Nodup) (q : String × ExecState → Bool)
    (p : String × ExecState) (hp : p ∈ recs) :
    decide (p.1 ∈ (recs.filter q).map (fun x => x.1)) = q p := by
  by_cases h : q p = true
  · rw [h]
    exact decide_eq_true ((mem_keys_filter_iff recs hnd q p hp).mpr h)
  · have h2 : ¬ (p.1 ∈ (recs.filter q).map (fun x => x.1)) :=
      fun hm => h ((mem_keys_filter_iff recs hnd q p hp).mp hm)
    rw [decide_eq_false h2]
    exact (eq_false_of_ne_true h).symm

theorem cleanup_pass (parse : String → Option Int) (cutoff : Int)
    (S : Status) (recs : List (String × ExecState)) (cnt : Nat)
    (hnd : (recs.map (fun p => p.1)).Nodup) :
    ((mkStore recs).index S).foldl (cleanupStep parse cutoff)
        (mkStore recs, cnt)
      = (mkStore (recs.filter (fun p =>
            !(decide (p.2.status.getD .running = S)
              && tsOldB parse cutoff p.2))),
         cnt + (recs.filter (fun p =>
            decide (p.2.status.getD .running = S)
              && tsOldB parse cutoff p.2)).length) := by
  have hids : (mkStore recs).index S
      = (recs.filter (fun p =>
          decide (p.2.status.getD Status.running = S))).map
            (fun p => p.1) := rfl
  rw [hids]
  rw [cleanup_foldl_mkStore parse cutoff _ recs cnt hnd
    (keys_filter_nodup _ _ hnd)
    (fun j hj => alookup_isSome_of_mem_index recs _ j hj)]
  rw [Prod.mk.injEq]
  constructor
  · exact congrArg mkStore (List.filter_congr
      (fun a ha => by rw [decide_mem_index_eq recs hnd _ a ha]))
  · congr 1
    exact congrArg List.length (List.filter_congr
      (fun a ha => by rw [decide_mem_index_eq recs hnd _ a ha]))

/-- C5: on a consistent store populated with records of arbitrary
statuses and timestamps, `cleanup` removes exactly the `completed` and
`failed` records whose (non-empty, parseable) timestamp lies strictly
before the cutoff; `running` and `paused` records, younger terminal
records, and records with a missing (empty) or unparsable timestamp
are all left untouched (the latter skipped without failing), and the
returned count is exactly the number of records removed. -/
theorem cleanup_removes_exactly_old_terminal (parse : String → Option Int)
    (cutoff : Int) (recs : List (String × ExecState))
    (hnd : (recs.map (fun p => p.1)).Nodup) :
    cleanup_old_executions_async parse cutoff (mkStore recs)
      = (mkStore (recs.filter (fun p => !(toDeleteB parse cutoff p.2))),
         (recs.filter (fun p => toDeleteB parse cutoff p.2)).length) := by
  have bool1 : ∀ c f o : Bool, (!(f && o) && !(c && o)) = !((c || f) && o) := by
    decide
  have bool2 : ∀ (st : Status) (o : Bool),
      ((decide (st = Status.failed) && o)
        && !(decide (st = Status.completed) && o))
        = (decide (st = Status.failed) && o) := by decide
  have bool3 : ∀ (st : Status) (o : Bool),
      ¬((decide (st = Status.completed) && o) = true
        ∧ (decide (st = Status.failed) && o) = true) := by decide
  have bool4 : ∀ c f o : Bool, ((c && o) || (f && o)) = ((c || f) && o) := by
    decide
  have h1 := cleanup_pass parse cutoff Status.completed recs 0 hnd
  have hnd1 : ((recs.filter (fun p =>
      !(decide (p.2.status.getD .running = Status.completed)
        && tsOldB parse cutoff p.2))).map (fun p => p.1)).Nodup :=
    keys_filter_nodup _ _ hnd
  have h2 := cleanup_pass parse cutoff Status.failed
    (recs.filter (fun p =>
      !(decide (p.2.status.getD .running = Status.completed)
        && tsOldB parse cutoff p.2)))
    ((recs.filter (fun p =>
      decide (p.2.status.getD .running = Status.completed)
        && tsOldB parse cutoff p.2)).length)
    hnd1
  have hE1 : (recs.filter (fun p =>
      !(decide (p.2.status.getD .running = Status.completed)
        && tsOldB parse cutoff p.2))).filter (fun p =>
      !(decide (p.2.status.getD .running = Status.failed)
        && tsOldB parse cutoff p.2))
      = recs.filter (fun p => !(toDeleteB parse cutoff p.2)) := by
    rw [List.filter_filter]
    apply List.filter_congr
    intro a _
    have hunf : toDeleteB parse cutoff a.2
        = ((decide (a.2.status.getD .running = Status.completed)
            || decide (a.2.status.getD .running = Status.failed))
          && tsOldB parse cutoff a.2) := rfl
    rw [hunf]
    exact bool1 _ _ _
  have hE2a : (recs.filter (fun p =>
      !(decide (p.2.status.getD .running = Status.completed)
        && tsOldB parse cutoff p.2))).filter (fun p =>
      decide (p.2.status.getD .running = Status.failed)
        && tsOldB parse cutoff p.2)
      = recs.filter (fun p =>
          decide (p.2.status.getD .running = Status.failed)
            && tsOldB parse cutoff p.2) := by
    rw [List.filter_filter]
    apply List.filter_congr
    intro a _
    exact bool2 _ _
  have hE2 : (recs.filter (fun p =>
        decide (p.2.status.getD .running = Status.completed)
          && tsOldB parse cutoff p.2)).length
      + (recs.filter (fun p =>
          decide (p.2.status.getD .running = Status.failed)
            && tsOldB parse cutoff p.2)).length
      = (recs.filter (fun p => toDeleteB parse cutoff p.2)).length := by
    rw [← length_filter_or_disjoint _ _ recs (fun a _ => bool3 _ _)]
    congr 1
    apply List.filter_congr
    intro a _
    have hunf : toDeleteB parse cutoff a.2
        = ((decide (a.2.status.getD .running = Status.completed)
            || decide (a.2.status.getD .running = Status.failed))
          && tsOldB parse cutoff a.2) := rfl
    rw [hunf]
    exact bool4 _ _ _
  simp only [cleanup_old_executions_async]
  rw [h1, Nat.zero_add]
  refine Eq.trans h2 ?_
  rw [Prod.mk.injEq]
  constructor
  · exact congrArg mkStore hE1
  · rw [hE2a]
    exact hE2

/-- C5 witness: the demo store (all four statuses, an old and a young
terminal record, an empty and an unparsable timestamp) evaluated
through the theorem; exactly two records — the old `completed` one and
the old `failed` one — are removed and counted. -/
theorem cleanup_removes_exactly_old_terminal_witness :
    ((demoRecs.map (fun p => p.1)).Nodup)
    ∧ cleanup_old_executions_async demoParse 10 (mkStore demoRecs)
        = (mkStore (demoRecs.filter
            (fun p => !(toDeleteB demoParse 10 p.2))),
           (demoRecs.filter (fun p => toDeleteB demoParse 10 p.2)).length)
    ∧ ((demoRecs.filter (fun p => toDeleteB demoParse 10 p.2)).length = 2) :=
  ⟨by decide,
   cleanup_removes_exactly_old_terminal demoParse 10 demoRecs (by decide),
   by decide⟩
